import Mathlib

/-!
Verification of the neat-racing repository's core algorithms against its
specification.  The Python source is shallowly embedded: every random draw a
function performs is passed in explicitly as an oracle argument, and the
support of the corresponding distribution becomes a validity predicate used
as a hypothesis.  Floats are modelled as rationals except for Softmax, whose
definition needs the real exponential.
-/

/-- Truncation toward zero, the behaviour of Python's int() on a number;
used by Track.raycast for mask indices and by next_generation for the
tournament pool size. -/
def ratTrunc (q : ℚ) : ℤ :=
  if 0 ≤ q then ⌊q⌋ else ⌈q⌉

/-! ### Configuration constants, from src/config/algorithm_config.py -/

def GENOME_MIN_LAYERS : ℕ := 1

def GENOME_MAX_LAYERS : ℕ := 4

def GENOME_MIN_NEURONS : ℕ := 5

def GENOME_MAX_NEURONS : ℕ := 10

def GENOME_WEIGHTS_STD : ℚ := 1/10

def MUTATION_CHANCE_WEIGHT : ℚ := 1/10

def MUTATION_CHANCE_TOPOLOGY : ℚ := 1/20

def MUTATION_CHANCE_ACTIVATION : ℚ := 1/20

def MUTATION_NOISE_LIMIT : ℚ := 1/10

def MUTATION_RESIZE_LIMIT : ℤ := 4

/-- Genetic-algorithm configuration (GeneticConfig in
src/config/algorithm_config.py), kept as a parameter so the theorems can
quantify over the elitism cutoff and tournament fraction. -/
structure GeneticConfig where
  ELITISM_CUTOFF : ℕ
  TOURNAMENT_SIZE : ℚ

/-- The concrete configuration instantiated by the repository. -/
def GENETIC : GeneticConfig := ⟨5, 1⟩

/-! ### Activation functions (tags; src/src/algorithm/genome.py draws them) -/

/-- The closed set of activation-function variants of
src/algorithm/activation_function.py. -/
inductive ActFn where
  | relu
  | sigmoid
  | tanh
  | softmax
deriving DecidableEq

/-- The pool the hidden-layer activation is drawn from in
Genome.random_activation: the list of classes ReLU, Sigmoid, Tanh. -/
def hiddenActChoices : List ActFn := [ActFn.relu, ActFn.sigmoid, ActFn.tanh]

/-! ### Genome, from src/src/algorithm/genome.py -/

/-- A neural-network genome: input and output widths, hidden-layer widths,
one activation per non-input layer, and the flat weight/bias buffer. -/
structure Genome where
  input_size : ℕ
  output_size : ℕ
  topology : List ℕ
  activations : List ActFn
  weights : List ℚ
deriving DecidableEq

/-- The total length of the flat weight buffer implied by a list of layer
sizes: for each consecutive pair, a weight matrix (next x current) plus a
bias vector (next), exactly the loop in Genome.random_weights. -/
def totalWeightSize : List ℕ → ℕ
  | a :: b :: rest => (b * a + b) + totalWeightSize (b :: rest)
  | _ => 0

/-- Genome.random_weights: a buffer of total_size standard-normal draws
scaled by the configured standard deviation.  The draws are the oracle w. -/
def randomWeights (input_size : ℕ) (topology : List ℕ) (output_size : ℕ)
    (w : ℕ → ℚ) : List ℚ :=
  (List.range (totalWeightSize (input_size :: topology ++ [output_size]))).map
    (fun i => w i * GENOME_WEIGHTS_STD)

/-- Genome.random_activations: one drawn activation per hidden layer
followed by the fixed Sigmoid output activation. -/
def randomActivations (num_layers : ℕ) (act : ℕ → ActFn) : List ActFn :=
  (List.range num_layers).map act ++ [ActFn.sigmoid]

/-- The random draws consumed by Genome.random. -/
structure RandomDraws where
  numLayers : ℕ
  layerSize : ℕ → ℕ
  act : ℕ → ActFn
  w : ℕ → ℚ

/-- The supports of the distributions Genome.random draws from:
layer count in [MIN_LAYERS, MAX_LAYERS], widths in
[MIN_NEURONS, MAX_NEURONS], activations from the ReLU/Sigmoid/Tanh pool. -/
def RandomDraws.Valid (d : RandomDraws) : Prop :=
  GENOME_MIN_LAYERS ≤ d.numLayers ∧ d.numLayers ≤ GENOME_MAX_LAYERS ∧
  (∀ i, GENOME_MIN_NEURONS ≤ d.layerSize i ∧ d.layerSize i ≤ GENOME_MAX_NEURONS) ∧
  (∀ i, d.act i ∈ hiddenActChoices)

/-- Genome.random: draw the hidden-layer count, each hidden width, the
activations, and the flat weights. -/
def Genome.random (input_size output_size : ℕ) (d : RandomDraws) : Genome :=
  let topology := (List.range d.numLayers).map d.layerSize
  { input_size := input_size
    output_size := output_size
    topology := topology
    activations := randomActivations d.numLayers d.act
    weights := randomWeights input_size topology output_size d.w }

/-- Genome.copy: rebuild the record from copies of the fields (copies of
immutable values coincide with the values themselves). -/
def Genome.copy (g : Genome) : Genome :=
  ⟨g.input_size, g.output_size, g.topology, g.activations, g.weights⟩

/-- The three topology mutations of the TopologyMutation enum. -/
inductive TopologyMutation where
  | add
  | remove
  | resize
deriving DecidableEq

/-- The random draws consumed by one call to Genome.mutate. -/
structure MutationDraws where
  weightU : ℕ → ℚ
  noise : ℕ → ℚ
  actU : ℕ → ℚ
  newAct : ℕ → ActFn
  topoU : ℚ
  topoChoice : TopologyMutation
  addIndex : ℕ
  addSize : ℕ
  addAct : ActFn
  removeIndex : ℕ
  resizeIndex : ℕ
  sizeDelta : ℤ
  w : ℕ → ℚ

/-- The supports of the distributions Genome.mutate draws from, relative to
the genome being mutated (index draws depend on the topology length). -/
def MutationDraws.Valid (d : MutationDraws) (g : Genome) : Prop :=
  (∀ i, 0 ≤ d.weightU i ∧ d.weightU i < 1) ∧
  (∀ i, -MUTATION_NOISE_LIMIT ≤ d.noise i ∧ d.noise i ≤ MUTATION_NOISE_LIMIT) ∧
  (∀ i, 0 ≤ d.actU i ∧ d.actU i < 1) ∧
  (∀ i, d.newAct i ∈ hiddenActChoices) ∧
  (0 ≤ d.topoU ∧ d.topoU < 1) ∧
  d.addIndex ≤ g.topology.length ∧
  (GENOME_MIN_NEURONS ≤ d.addSize ∧ d.addSize ≤ GENOME_MAX_NEURONS) ∧
  d.addAct ∈ hiddenActChoices ∧
  (GENOME_MIN_LAYERS < g.topology.length → d.removeIndex < g.topology.length) ∧
  (0 < g.topology.length → d.resizeIndex < g.topology.length) ∧
  (-MUTATION_RESIZE_LIMIT ≤ d.sizeDelta ∧ d.sizeDelta ≤ MUTATION_RESIZE_LIMIT)

/-- Genome.mutate_weights: add bounded noise to each weight selected by the
per-weight uniform draw being below the mutation chance. -/
def Genome.mutateWeights (g : Genome) (d : MutationDraws) : Genome :=
  { g with weights :=
      g.weights.mapIdx fun i w =>
        if d.weightU i < MUTATION_CHANCE_WEIGHT then w + d.noise i else w }

/-- Genome.mutate_activations: re-draw each hidden-layer activation
(everything except the last, output-layer entry) selected by its uniform
draw being below the mutation chance. -/
def Genome.mutateActivations (g : Genome) (d : MutationDraws) : Genome :=
  { g with activations :=
      g.activations.mapIdx fun i a =>
        if i < g.activations.length - 1 ∧ d.actU i < MUTATION_CHANCE_ACTIVATION
        then d.newAct i else a }

/-- Genome.add_layer: no-op at the layer cap, otherwise insert a drawn
width and activation at a drawn index and re-randomize all weights. -/
def Genome.addLayer (g : Genome) (d : MutationDraws) : Genome :=
  if GENOME_MAX_LAYERS ≤ g.topology.length then g
  else
    let topology := g.topology.insertIdx d.addIndex d.addSize
    { g with
      topology := topology
      activations := g.activations.insertIdx d.addIndex d.addAct
      weights := randomWeights g.input_size topology g.output_size d.w }

/-- Genome.remove_layer: no-op at the layer floor, otherwise remove the
layer and activation at a drawn index and re-randomize all weights. -/
def Genome.removeLayer (g : Genome) (d : MutationDraws) : Genome :=
  if g.topology.length ≤ GENOME_MIN_LAYERS then g
  else
    let topology := g.topology.eraseIdx d.removeIndex
    { g with
      topology := topology
      activations := g.activations.eraseIdx d.removeIndex
      weights := randomWeights g.input_size topology g.output_size d.w }

/-- np.clip onto the configured neuron bounds. -/
def clipNeurons (x : ℤ) : ℕ :=
  (min (max x (GENOME_MIN_NEURONS : ℤ)) (GENOME_MAX_NEURONS : ℤ)).toNat

/-- Genome.resize_layer: apply a bounded size delta to a drawn layer,
clipped into the neuron bounds, and re-randomize all weights. -/
def Genome.resizeLayer (g : Genome) (d : MutationDraws) : Genome :=
  let old := g.topology.getD d.resizeIndex 0
  let topology := g.topology.set d.resizeIndex (clipNeurons ((old : ℤ) + d.sizeDelta))
  { g with
    topology := topology
    weights := randomWeights g.input_size topology g.output_size d.w }

/-- Genome.mutate_topology: with the configured probability, apply one of
the three topology mutations chosen uniformly. -/
def Genome.mutateTopology (g : Genome) (d : MutationDraws) : Genome :=
  if MUTATION_CHANCE_TOPOLOGY ≤ d.topoU then g
  else
    match d.topoChoice with
    | TopologyMutation.add => g.addLayer d
    | TopologyMutation.remove => g.removeLayer d
    | TopologyMutation.resize => g.resizeLayer d

/-- Genome.mutate: weights, then activations, then topology. -/
def Genome.mutate (g : Genome) (d : MutationDraws) : Genome :=
  ((g.mutateWeights d).mutateActivations d).mutateTopology d

/-- Repeated mutation with an explicit list of per-call draws. -/
def mutateSeq (g : Genome) : List MutationDraws → Genome
  | [] => g
  | d :: ds => mutateSeq (g.mutate d) ds

/-- Validity of a sequence of mutation draws along the trajectory of the
genome they are applied to. -/
def ValidSeq : Genome → List MutationDraws → Prop
  | _, [] => True
  | g, d :: ds => d.Valid g ∧ ValidSeq (g.mutate d) ds

/-- The genome well-formedness invariant: activation count is topology
length plus one, weight buffer length matches the sizes exactly, the layer
count and every hidden width are within the configured bounds. -/
def wellFormed (g : Genome) : Prop :=
  g.activations.length = g.topology.length + 1 ∧
  g.weights.length = totalWeightSize (g.input_size :: g.topology ++ [g.output_size]) ∧
  GENOME_MIN_LAYERS ≤ g.topology.length ∧
  g.topology.length ≤ GENOME_MAX_LAYERS ∧
  ∀ n ∈ g.topology, GENOME_MIN_NEURONS ≤ n ∧ n ≤ GENOME_MAX_NEURONS

instance (g : Genome) : Decidable (wellFormed g) := by
  unfold wellFormed
  infer_instance

/-! ### Genetic algorithm, from src/src/algorithm/genetic_algorithm.py -/

/-- Genetic-algorithm state: generation counter, population of
(genome, fitness) pairs, and target population size. -/
structure GA where
  generation : ℕ
  population : List (Genome × ℚ)
  populationSize : ℕ

/-- Descending-by-fitness comparison used as the sort key (reverse=True). -/
def fitGe (a b : Genome × ℚ) : Prop := b.2 ≤ a.2

instance : DecidableRel fitGe := fun a b => inferInstanceAs (Decidable (b.2 ≤ a.2))

instance : IsTotal (Genome × ℚ) fitGe := ⟨fun a b => le_total b.2 a.2⟩

instance : IsTrans (Genome × ℚ) fitGe := ⟨fun _ _ _ h1 h2 => le_trans h2 h1⟩

/-- The stable descending-by-fitness sort performed in place by
select_survivors and get_top (Python list.sort with reverse=True). -/
def sortByFitnessDesc (pop : List (Genome × ℚ)) : List (Genome × ℚ) :=
  List.insertionSort fitGe pop

/-- The two indices drawn by RNG.choice(genomes, size=2) in a tournament
(drawing with replacement: the indices may coincide). -/
structure TournamentDraw where
  i : ℕ
  j : ℕ

/-- GeneticAlgorithm.run_tournament: with fewer than two entries return the
sole entry's genome (indexing an empty list is the failure case, hence
Option); otherwise pick two entries at the drawn indices and return the
genome of the one with the higher fitness (the first on a tie, as Python
max does). -/
def runTournament (genomes : List (Genome × ℚ)) (d : TournamentDraw) :
    Option Genome :=
  if genomes.length < 2 then (genomes[0]?).map Prod.fst
  else do
    let a ← genomes[d.i]?
    let b ← genomes[d.j]?
    some (if b.2 > a.2 then b.1 else a.1)

/-- GeneticAlgorithm.run_tournament_with_fitness: as runTournament but
returning the whole (genome, fitness) pair. -/
def runTournamentWithFitness (genomes : List (Genome × ℚ)) (d : TournamentDraw) :
    Option (Genome × ℚ) :=
  if genomes.length < 2 then genomes[0]?
  else do
    let a ← genomes[d.i]?
    let b ← genomes[d.j]?
    some (if b.2 > a.2 then b else a)

/-- GeneticAlgorithm.crossover: with differing topologies, a copy of the
first parent; otherwise blend each weight with its own alpha draw and
inherit topology and activations (copied) from the first parent. -/
def crossover (parent_a parent_b : Genome) (alpha : ℕ → ℚ) : Genome :=
  if parent_a.topology ≠ parent_b.topology then parent_a.copy
  else
    { input_size := parent_a.input_size
      output_size := parent_a.output_size
      topology := parent_a.topology
      activations := parent_a.activations
      weights :=
        List.zipWith
          (fun (p : ℕ × ℚ) wb => alpha p.1 * p.2 + (1 - alpha p.1) * wb)
          parent_a.weights.enum parent_b.weights }

/-- The swap in next_generation that makes the fitter tournament winner the
primary crossover parent. -/
def orderParents (a b : Genome × ℚ) : (Genome × ℚ) × (Genome × ℚ) :=
  if b.2 > a.2 then (b, a) else (a, b)

/-- The random draws consumed to produce one child in next_generation:
two tournaments, the per-weight crossover alphas, and the mutation draws. -/
structure ChildDraws where
  t1 : TournamentDraw
  t2 : TournamentDraw
  alpha : ℕ → ℚ
  mutDraws : MutationDraws

/-- One iteration of the reproduction loop of next_generation: run two
tournaments, order the winners by fitness, cross them and mutate the child. -/
def makeChild (pool : List (Genome × ℚ)) (d : ChildDraws) : Option Genome := do
  let a ← runTournamentWithFitness pool d.t1
  let b ← runTournamentWithFitness pool d.t2
  let p := orderParents a b
  let child := crossover p.1.1 p.2.1 d.alpha
  some (child.mutate d.mutDraws)

/-- The random draws consumed by one call to next_generation: the survivor
tournaments of select_survivors and the per-child reproduction draws. -/
structure NextGenDraws where
  surv : ℕ → TournamentDraw
  child : ℕ → ChildDraws

/-- The tournament pool size computed in next_generation and
select_survivors: the top fraction of the sorted population, floored at
ELITISM_CUTOFF + 1 (int() truncates toward zero). -/
def poolSize (cfg : GeneticConfig) (n : ℕ) : ℕ :=
  max (ratTrunc ((n : ℚ) * cfg.TOURNAMENT_SIZE)).toNat (cfg.ELITISM_CUTOFF + 1)

/-- Sequencing of the append-one-result-per-iteration loops: the results of
f 0, ..., f (n-1) in order, none if any iteration fails. -/
def optionRange (f : ℕ → Option α) : ℕ → Option (List α)
  | 0 => some []
  | n + 1 => do
    let xs ← optionRange f n
    let x ← f n
    some (xs ++ [x])

/-- GeneticAlgorithm.select_survivors on the already-sorted population:
the top ELITISM_CUTOFF genomes followed by population_size - ELITISM_CUTOFF
tournament winners drawn from the top-fraction pool. -/
def selectSurvivors (cfg : GeneticConfig) (population_size : ℕ)
    (sorted : List (Genome × ℚ)) (o : NextGenDraws) : Option (List Genome) := do
  let survivors := (sorted.take cfg.ELITISM_CUTOFF).map Prod.fst
  let pool := sorted.take (poolSize cfg sorted.length)
  let winners ← optionRange (fun i => runTournament pool (o.surv i))
    (population_size - cfg.ELITISM_CUTOFF)
  some (survivors ++ winners)

/-- GeneticAlgorithm.next_generation: evaluate fitness, sort descending,
copy the elites with fitness 0, then fill the population to its target size
with crossover-plus-mutation children of tournament-selected parents, and
finally bump the generation counter and replace the population. -/
def nextGeneration (cfg : GeneticConfig) (ga : GA) (fitness_func : Genome → ℚ)
    (o : NextGenDraws) : Option GA := do
  let evaluated := ga.population.map (fun p => (p.1, fitness_func p.1))
  let sorted := sortByFitnessDesc evaluated
  let survivors ← selectSurvivors cfg ga.populationSize sorted o
  let new_population := (survivors.take cfg.ELITISM_CUTOFF).map
    (fun g => (g.copy, (0 : ℚ)))
  let pool := sorted.take (poolSize cfg sorted.length)
  let children ← optionRange
    (fun i => (makeChild pool (o.child i)).map (fun c => (c, (0 : ℚ))))
    (ga.populationSize - new_population.length)
  some { generation := ga.generation + 1
         population := new_population ++ children
         populationSize := ga.populationSize }

/-- Validity of the draws of one next_generation call: every tournament
index falls inside the tournament pool (whose length is the pool size
capped by the population length). -/
def NextGenDraws.Valid (o : NextGenDraws) (poolLen : ℕ) : Prop :=
  (∀ k, (o.surv k).i < poolLen ∧ (o.surv k).j < poolLen) ∧
  (∀ k, ((o.child k).t1.i < poolLen ∧ (o.child k).t1.j < poolLen) ∧
    ((o.child k).t2.i < poolLen ∧ (o.child k).t2.j < poolLen))

/-! ### Car progression state, from src/src/core/car.py -/

/-- The checkpoint-progression state of a Car.  The two handlers below read
and write only these two fields of the Car. -/
structure CarProg where
  current_checkpoint : ℕ
  laps_completed : ℕ
deriving DecidableEq

/-- Car.handle_checkpoint_hit: advance only on the exactly expected
checkpoint order. -/
def CarProg.handle_checkpoint_hit (c : CarProg) (checkpoint_order : ℕ) : CarProg :=
  if checkpoint_order ≠ c.current_checkpoint then c
  else { c with current_checkpoint := c.current_checkpoint + 1 }

/-- Car.handle_finish_line: complete a lap only when every checkpoint has
been hit in order. -/
def CarProg.handle_finish_line (c : CarProg) (total_checkpoints : ℕ) : CarProg :=
  if total_checkpoints ≠ c.current_checkpoint then c
  else { current_checkpoint := 0, laps_completed := c.laps_completed + 1 }

/-! ### AI controller checkpoint handling, from src/src/training/ai_controller.py -/

/-- The state of AIController.handle_checkpoint_hit: the controlled car's
progression state and the wrong-checkpoint counter. -/
structure AIControllerState where
  car : CarProg
  wrong_checkpoints : ℕ
deriving DecidableEq

/-- AIController.handle_checkpoint_hit: forward the hit to the car, return
early when the order equals the car's (possibly just incremented) counter
minus one, else compute the minimum of the forward and backward offsets
modulo the checkpoint count between the hit and the value the code calls
expected (current_checkpoint - 1 when positive, else 0; Python integer
arithmetic, and Python % on a positive modulus matching Int.emod), and
penalise when that minimum is at least 2. -/
def AIControllerState.handle_checkpoint_hit (s : AIControllerState)
    (checkpoint_order total_checkpoints : ℕ) : AIControllerState :=
  let car := s.car.handle_checkpoint_hit checkpoint_order
  if (checkpoint_order : ℤ) = (car.current_checkpoint : ℤ) - 1 then
    { s with car := car }
  else
    let expected : ℤ :=
      if 0 < car.current_checkpoint then (car.current_checkpoint : ℤ) - 1 else 0
    let forward_dist : ℤ := ((checkpoint_order : ℤ) - expected) % (total_checkpoints : ℤ)
    let backward_dist : ℤ := (expected - (checkpoint_order : ℤ)) % (total_checkpoints : ℤ)
    let min_dist : ℤ := min forward_dist backward_dist
    if 2 ≤ min_dist then
      { car := car, wrong_checkpoints := s.wrong_checkpoints + 1 }
    else { s with car := car }

/-- Modelled from the spec (claim C6): the circular distance between the
expected next checkpoint and the hit checkpoint, that is the minimum of the
forward and backward offsets modulo the total checkpoint count. -/
def circularDistSpec (expected hit total : ℕ) : ℤ :=
  min (((hit : ℤ) - (expected : ℤ)) % (total : ℤ))
    (((expected : ℤ) - (hit : ℤ)) % (total : ℤ))

/-! ### Track raycast, from src/src/core/track.py -/

/-- The part of a Track that raycast reads: mask dimensions and the binary
collision mask (true on drivable cells). -/
structure Track where
  width : ℕ
  height : ℕ
  collision_mask : ℤ → ℤ → Bool

/-- One sample of the ray march is acceptable when the truncated point is
inside the mask bounds and on a drivable cell. -/
def Track.sampleOk (t : Track) (px py : ℚ) : Prop :=
  0 ≤ ratTrunc px ∧ ratTrunc px < (t.width : ℤ) ∧
  0 ≤ ratTrunc py ∧ ratTrunc py < (t.height : ℤ) ∧
  t.collision_mask (ratTrunc py) (ratTrunc px) = true

instance (t : Track) (px py : ℚ) : Decidable (t.sampleOk px py) := by
  unfold Track.sampleOk
  infer_instance

/-- The while loop of Track.raycast: march in steps of the fixed base step
of 2.0 while the travelled distance is below the budget, returning the
travelled distance at the first out-of-bounds or off-track sample.  The
fuel argument bounds the iteration count; raycast passes enough fuel for
the loop to only terminate through its own conditions. -/
def raycastLoop (t : Track) (dx dy maxD : ℚ) : ℚ → ℚ → ℚ → ℕ → ℚ
  | _, _, _, 0 => maxD
  | x, y, dist, fuel + 1 =>
    if dist < maxD then
      if ratTrunc x < 0 ∨ (t.width : ℤ) ≤ ratTrunc x ∨
          ratTrunc y < 0 ∨ (t.height : ℤ) ≤ ratTrunc y then dist
      else if t.collision_mask (ratTrunc y) (ratTrunc x) = false then dist
      else raycastLoop t dx dy maxD (x + dx * 2) (y + dy * 2) (dist + 2) fuel
    else maxD

/-- Enough loop iterations for every distance below the budget in steps
of 2. -/
def raycastFuel (maxD : ℚ) : ℕ := (⌈maxD / 2⌉).toNat + 1

/-- Track.raycast: return the budget for a degenerate (near-zero) direction,
otherwise ray-march from the origin. -/
def Track.raycast (t : Track) (ox oy dx dy maxD : ℚ) : ℚ :=
  if |dx| < 1 / 10000000000 ∧ |dy| < 1 / 10000000000 then maxD
  else raycastLoop t dx dy maxD ox oy 0 (raycastFuel maxD)

/-! ### AI controller decision step, from src/src/training/ai_controller.py -/

/-- The action-selection portion of AIController.make_decision: read the
four network outputs (failing on a shorter vector, hence Option) and choose
the acceleration, braking, and turning actions. -/
def make_decision_actions (outputs : List ℚ) : Option (Bool × Bool × ℤ) := do
  let accel_prob ← outputs[0]?
  let brake_prob ← outputs[1]?
  let turn_left_prob ← outputs[2]?
  let turn_right_prob ← outputs[3]?
  some (decide (accel_prob > brake_prob), decide (brake_prob ≥ accel_prob),
    (if turn_right_prob > 1/2 then (1 : ℤ) else 0) -
      (if turn_left_prob > 1/2 then (1 : ℤ) else 0))

/-! ### Softmax, from src/algorithm/activation_function.py -/

/-- Softmax.forward: subtract the row maximum, exponentiate, and normalise
by the sum.  The empty vector is the failure case (np.max of an empty array
raises), hence Option. -/
noncomputable def softmaxForward (z : List ℝ) : Option (List ℝ) :=
  match z with
  | [] => none
  | zh :: zt =>
    let m := zt.foldl max zh
    let exp_z := (zh :: zt).map (fun v => Real.exp (v - m))
    some (exp_z.map (fun t => t / exp_z.sum))

/-! ### Concrete inputs used by the witnesses -/

/-- A small well-formed genome: 2 inputs, 2 outputs, one hidden layer of 5
neurons; the flat buffer holds (5*2+5) + (2*5+2) = 27 entries. -/
def witGenome : Genome :=
  { input_size := 2
    output_size := 2
    topology := [5]
    activations := [ActFn.relu, ActFn.sigmoid]
    weights := List.replicate 27 0 }

/-- A second well-formed genome with the same shape as witGenome but
different weights. -/
def witGenomeB : Genome :=
  { input_size := 2
    output_size := 2
    topology := [5]
    activations := [ActFn.tanh, ActFn.sigmoid]
    weights := List.replicate 27 1 }

/-- A well-formed genome with a different topology from witGenome. -/
def witGenomeC : Genome :=
  { input_size := 2
    output_size := 2
    topology := [5, 6]
    activations := [ActFn.relu, ActFn.tanh, ActFn.sigmoid]
    weights := List.replicate 57 0 }

/-- A concrete valid draw record for Genome.mutate (the topology-mutation
draw lands above the mutation chance, so the topology is unchanged). -/
def witMutationDraws : MutationDraws :=
  { weightU := fun _ => 1/2
    noise := fun _ => 0
    actU := fun _ => 1/2
    newAct := fun _ => ActFn.relu
    topoU := 1/2
    topoChoice := TopologyMutation.resize
    addIndex := 0
    addSize := 5
    addAct := ActFn.relu
    removeIndex := 0
    resizeIndex := 0
    sizeDelta := 0
    w := fun _ => 0 }

/-- A concrete valid draw record for Genome.random. -/
def witRandomDraws : RandomDraws :=
  { numLayers := 2
    layerSize := fun _ => 5
    act := fun _ => ActFn.tanh
    w := fun _ => 0 }

/-- A concrete draw record for one next_generation child. -/
def witChildDraws : ChildDraws :=
  { t1 := ⟨0, 1⟩
    t2 := ⟨1, 0⟩
    alpha := fun _ => 1/2
    mutDraws := witMutationDraws }

/-- A concrete draw record for a whole next_generation call. -/
def witNextGenDraws : NextGenDraws :=
  { surv := fun _ => ⟨0, 1⟩
    child := fun _ => witChildDraws }

/-- A concrete configuration with elitism cutoff 1. -/
def witConfig : GeneticConfig := ⟨1, 1⟩

/-- A concrete genetic-algorithm state with a population of two genomes. -/
def witGA : GA :=
  { generation := 0
    population := [(witGenome, 0), (witGenomeB, 0)]
    populationSize := 2 }

/-- A concrete fitness function giving witGenomeB the higher score. -/
def witFitness (g : Genome) : ℚ := if g = witGenomeB then 10 else 1

/-- A fully drivable track mask. -/
def witTrack : Track :=
  { width := 100
    height := 100
    collision_mask := fun _ _ => true }

/-! ### Theorems -/

/-- C4: handle_checkpoint_hit increments current_checkpoint by exactly 1
when the hit checkpoint's order equals current_checkpoint and leaves the
car state unchanged otherwise; handle_finish_line increments laps_completed
and resets current_checkpoint to 0 when current_checkpoint equals the total
checkpoint count, and leaves both counters unchanged otherwise. -/
theorem checkpoint_and_finish_line_progression (c : CarProg) (checkpoint_order total_checkpoints : ℕ) :
    (checkpoint_order = c.current_checkpoint →
      c.handle_checkpoint_hit checkpoint_order =
        { c with current_checkpoint := c.current_checkpoint + 1 }) ∧
    (checkpoint_order ≠ c.current_checkpoint →
      c.handle_checkpoint_hit checkpoint_order = c) ∧
    (total_checkpoints = c.current_checkpoint →
      c.handle_finish_line total_checkpoints =
        { current_checkpoint := 0, laps_completed := c.laps_completed + 1 }) ∧
    (total_checkpoints ≠ c.current_checkpoint →
      c.handle_finish_line total_checkpoints = c) := by
  refine ⟨?_, ?_, ?_, ?_⟩ <;> intro h <;>
    simp [CarProg.handle_checkpoint_hit, CarProg.handle_finish_line, h]

/-- Witness for C4 at a concrete car state: an in-order hit advances the
counter, an out-of-order hit is ignored, a finish-line crossing with all
checkpoints collected completes a lap, and one without them is ignored. -/
theorem checkpoint_and_finish_line_progression_witness :
    CarProg.handle_checkpoint_hit ⟨3, 1⟩ 3 = ⟨4, 1⟩ ∧
    CarProg.handle_checkpoint_hit ⟨3, 1⟩ 7 = ⟨3, 1⟩ ∧
    CarProg.handle_finish_line ⟨8, 1⟩ 8 = ⟨0, 2⟩ ∧
    CarProg.handle_finish_line ⟨3, 1⟩ 8 = ⟨3, 1⟩ :=
  ⟨(checkpoint_and_finish_line_progression ⟨3, 1⟩ 3 8).1 rfl,
   (checkpoint_and_finish_line_progression ⟨3, 1⟩ 7 8).2.1 (by decide),
   (checkpoint_and_finish_line_progression ⟨8, 1⟩ 3 8).2.2.1 rfl,
   (checkpoint_and_finish_line_progression ⟨3, 1⟩ 7 8).2.2.2 (by decide)⟩

/-- C9: a tournament over a pool with exactly one entry returns that sole
member as a defined fallback (some, never a failure), and the result does
not depend on the random index draws. -/
theorem tournament_singleton_pool (g : Genome) (fit : ℚ) (d e : TournamentDraw) :
    runTournament [(g, fit)] d = some g ∧
    runTournamentWithFitness [(g, fit)] d = some (g, fit) ∧
    runTournament [(g, fit)] d = runTournament [(g, fit)] e ∧
    runTournamentWithFitness [(g, fit)] d = runTournamentWithFitness [(g, fit)] e := by
  refine ⟨rfl, rfl, rfl, rfl⟩

/-- C10: the decision step sets accelerate exactly when output 0 exceeds
output 1 and brake exactly when output 1 is at least output 0, so exactly
one of the two flags is set, and on a tie only brake is set. -/
theorem decision_accelerate_brake_exclusive (o0 o1 o2 o3 : ℚ) :
    ∃ a b trn, make_decision_actions [o0, o1, o2, o3] = some (a, b, trn) ∧
      (a = true ↔ o0 > o1) ∧
      (b = true ↔ o1 ≥ o0) ∧
      ((a = true ∧ b = false) ∨ (a = false ∧ b = true)) ∧
      (o0 = o1 → a = false ∧ b = true) := by
  refine ⟨_, _, _, rfl, decide_eq_true_iff, decide_eq_true_iff, ?_, ?_⟩
  · by_cases h : o0 > o1
    · exact Or.inl ⟨by simpa using h, by simpa using not_le.mpr h⟩
    · exact Or.inr ⟨by simpa using h, by simpa using not_lt.mp h⟩
  · intro h
    subst h
    exact ⟨by simp, by simp⟩

/-- Witness for C10 at concrete outputs. -/
theorem decision_accelerate_brake_exclusive_witness :
    ∃ a b trn, make_decision_actions [1, 0, 0, 0] = some (a, b, trn) ∧
      (a = true ↔ (1 : ℚ) > 0) ∧
      (b = true ↔ (0 : ℚ) ≥ 1) ∧
      ((a = true ∧ b = false) ∨ (a = false ∧ b = true)) ∧
      ((1 : ℚ) = 0 → a = false ∧ b = true) :=
  decision_accelerate_brake_exclusive 1 0 0 0

/-- C6 (code evaluation at the failing input): with 10 checkpoints, a car
expecting checkpoint 5, and a hit on the adjacent checkpoint 6, the
controller increments the wrong-checkpoint counter even though the circular
distance between the expected checkpoint (5) and the hit checkpoint (6)
is 1, because the code measures the distance from current_checkpoint - 1
(the checkpoint before the expected one) although no increment happened on
this incorrect hit. -/
theorem wrong_checkpoint_penalty_adjacent_hit :
    (AIControllerState.handle_checkpoint_hit ⟨⟨5, 0⟩, 0⟩ 6 10).wrong_checkpoints = 1 ∧
    circularDistSpec 5 6 10 = 1 ∧
    (AIControllerState.handle_checkpoint_hit ⟨⟨5, 0⟩, 0⟩ 6 10).car.current_checkpoint = 5 := by
  decide

/-- C7: every genome returned by Genome.random carries Sigmoid as the last
(output-layer) activation, and every hidden-layer activation comes from the
ReLU/Sigmoid/Tanh pool. -/
theorem random_genome_output_activation (input_size output_size : ℕ)
    (d : RandomDraws) (h : d.Valid) :
    (Genome.random input_size output_size d).activations.getLast? = some ActFn.sigmoid ∧
    ∀ a ∈ (Genome.random input_size output_size d).activations.dropLast,
      a ∈ hiddenActChoices := by
  obtain ⟨-, -, -, hact⟩ := h
  constructor
  · simp [Genome.random, randomActivations, List.getLast?_concat]
  · intro a ha
    simp only [Genome.random, randomActivations, List.dropLast_concat,
      List.mem_map, List.mem_range] at ha
    obtain ⟨i, -, rfl⟩ := ha
    exact hact i

/-- The concrete random draws of the C7 witness are valid. -/
theorem witRandomDrawsValid : witRandomDraws.Valid := by
  refine ⟨by decide, by decide, fun i => ⟨?_, ?_⟩, fun i => ?_⟩ <;>
    simp [witRandomDraws, hiddenActChoices, GENOME_MIN_NEURONS, GENOME_MAX_NEURONS]

/-- Witness for C7 at concrete valid draws. -/
theorem random_genome_output_activation_witness :
    witRandomDraws.Valid ∧
    ((Genome.random 7 4 witRandomDraws).activations.getLast? = some ActFn.sigmoid ∧
      ∀ a ∈ (Genome.random 7 4 witRandomDraws).activations.dropLast,
        a ∈ hiddenActChoices) :=
  ⟨witRandomDrawsValid,
    random_genome_output_activation 7 4 witRandomDraws witRandomDrawsValid⟩

/-- Dividing every element of a list by a constant divides its sum. -/
theorem list_sum_map_div (l : List ℝ) (c : ℝ) :
    (l.map (fun x => x / c)).sum = l.sum / c := by
  induction l with
  | nil => simp
  | cons a t ih => simp [ih, add_div]

/-- In a list of at least two positive reals, every element is strictly
below the sum. -/
theorem list_mem_lt_sum_of_pos (l : List ℝ) (hpos : ∀ x ∈ l, 0 < x)
    (hlen : 2 ≤ l.length) : ∀ x ∈ l, x < l.sum := by
  match l with
  | [] => simp at hlen
  | a :: tl =>
    have htl : tl ≠ [] := by
      intro h
      rw [h] at hlen
      simp at hlen
    have htlpos : 0 < tl.sum :=
      List.sum_pos tl (fun x hx => hpos x (List.mem_cons_of_mem a hx)) htl
    intro x hx
    rcases List.mem_cons.mp hx with rfl | hmem
    · simpa using lt_add_of_pos_right x htlpos
    · have hle : x ≤ tl.sum :=
        List.single_le_sum (fun y hy => (hpos y (List.mem_cons_of_mem a hy)).le) x hmem
      have ha : 0 < a := hpos a (List.mem_cons_self a tl)
      calc x ≤ tl.sum := hle
        _ < a + tl.sum := lt_add_of_pos_left tl.sum ha
        _ = (a :: tl).sum := (List.sum_cons).symm

/-- Renormalising exponentials shifted by any constant m gives the same
vector as normalising the plain exponentials. -/
theorem softmax_shift (l : List ℝ) (m : ℝ) (hne : l ≠ []) :
    (l.map (fun v => Real.exp (v - m))).map
        (fun t => t / (l.map (fun v => Real.exp (v - m))).sum) =
      l.map (fun v => Real.exp v / (l.map Real.exp).sum) := by
  have hm0 : Real.exp m ≠ 0 := Real.exp_ne_zero m
  have hTpos : 0 < (l.map Real.exp).sum := by
    refine List.sum_pos _ ?_ (by simpa using hne)
    intro x hx
    obtain ⟨u, -, rfl⟩ := List.mem_map.mp hx
    exact Real.exp_pos u
  have hT0 : (l.map Real.exp).sum ≠ 0 := ne_of_gt hTpos
  have hS : (l.map (fun v => Real.exp (v - m))).sum =
      (l.map Real.exp).sum / Real.exp m := by
    rw [← list_sum_map_div (l.map Real.exp) (Real.exp m), List.map_map]
    refine congrArg List.sum (List.map_congr_left ?_)
    intro v _
    simp [Function.comp, Real.exp_sub]
  rw [hS, List.map_map]
  refine List.map_congr_left ?_
  intro v _
  simp only [Function.comp_apply, Real.exp_sub]
  rw [div_div_div_cancel_right₀]
  exact hm0

/-- C8 (counterexample to the claim as stated): on the one-element input
vector, Softmax.forward returns the one-element vector 1, whose sole entry
does not lie strictly inside (0, 1). -/
theorem softmax_singleton_counterexample :
    softmaxForward [(0 : ℝ)] = some [1] ∧ ¬ ((1 : ℝ) < 1) := by
  constructor
  · simp [softmaxForward]
  · exact lt_irrefl 1

/-- C8 (amended): for every input vector with at least two entries,
Softmax.forward returns a vector of the same length whose entries lie
strictly in (0, 1) and sum to 1 within 1e-9, and the max-subtracting
computation agrees with the direct normalised exponential. -/
theorem softmax_forward_props (z : List ℝ) (h2 : 2 ≤ z.length) :
    ∃ out, softmaxForward z = some out ∧
      out.length = z.length ∧
      (∀ y ∈ out, 0 < y ∧ y < 1) ∧
      |out.sum - 1| ≤ 1 / 1000000000 ∧
      out = z.map (fun v => Real.exp v / (z.map Real.exp).sum) := by
  match z with
  | [] => simp at h2
  | zh :: zt =>
    set m := zt.foldl max zh with hm
    set exp_z := (zh :: zt).map (fun v => Real.exp (v - m)) with hexpz
    have hpos : ∀ x ∈ exp_z, 0 < x := by
      intro x hx
      rw [hexpz] at hx
      obtain ⟨v, -, rfl⟩ := List.mem_map.mp hx
      exact Real.exp_pos _
    have hne : exp_z ≠ [] := by simp [hexpz]
    have hlen : exp_z.length = (zh :: zt).length := by simp [hexpz]
    have hSpos : 0 < exp_z.sum := List.sum_pos exp_z hpos hne
    refine ⟨exp_z.map (fun t => t / exp_z.sum), ?_, ?_, ?_, ?_, ?_⟩
    · simp [softmaxForward, hexpz, hm]
    · simp [hlen]
    · intro y hy
      obtain ⟨t, ht, rfl⟩ := List.mem_map.mp hy
      constructor
      · exact div_pos (hpos t ht) hSpos
      · rw [div_lt_one hSpos]
        exact list_mem_lt_sum_of_pos exp_z hpos (by rw [hlen]; simpa using h2) t ht
    · rw [list_sum_map_div, div_self (ne_of_gt hSpos)]
      simp
    · rw [hexpz]
      exact softmax_shift (zh :: zt) m (by simp)

/-- Witness for the amended C8 at the concrete two-element input vector. -/
theorem softmax_forward_props_witness :
    2 ≤ ([(0 : ℝ), 0]).length ∧
    (∃ out, softmaxForward [(0 : ℝ), 0] = some out ∧
      out.length = ([(0 : ℝ), 0]).length ∧
      (∀ y ∈ out, 0 < y ∧ y < 1) ∧
      |out.sum - 1| ≤ 1 / 1000000000 ∧
      out = [(0 : ℝ), 0].map (fun v => Real.exp v / ([(0 : ℝ), 0].map Real.exp).sum)) :=
  ⟨by norm_num, softmax_forward_props [(0 : ℝ), 0] (by norm_num)⟩

/-- A convex combination with coefficient in [0, 1] lies between its two
endpoints. -/
theorem blend_between (a b c : ℚ) (h0 : 0 ≤ c) (h1 : c ≤ 1) :
    min a b ≤ c * a + (1 - c) * b ∧ c * a + (1 - c) * b ≤ max a b := by
  constructor
  · rcases le_total a b with h | h
    · rw [min_eq_left h]
      nlinarith
    · rw [min_eq_right h]
      nlinarith
  · rcases le_total a b with h | h
    · rw [max_eq_right h]
      nlinarith
    · rw [max_eq_left h]
      nlinarith

/-- C3: crossover of parents with differing topologies degenerates to a
copy of the first parent, which the caller's swap makes the fitter one;
with identical topologies the child inherits topology and activations from
the first parent and each child weight is the per-index alpha blend of the
parents' weights, hence lies between them when the alpha is in [0, 1]. -/
theorem crossover_properties (parent_a parent_b : Genome) (alpha : ℕ → ℚ) :
    (parent_a.topology ≠ parent_b.topology →
      crossover parent_a parent_b alpha = parent_a.copy) ∧
    (∀ x y : Genome × ℚ,
      (orderParents x y).1.2 = max x.2 y.2 ∧
      ((orderParents x y).1 = x ∨ (orderParents x y).1 = y)) ∧
    (parent_a.topology = parent_b.topology →
      (crossover parent_a parent_b alpha).topology = parent_a.topology ∧
      (crossover parent_a parent_b alpha).activations = parent_a.activations ∧
      (parent_a.weights.length = parent_b.weights.length →
        (crossover parent_a parent_b alpha).weights.length = parent_a.weights.length) ∧
      (∀ i (hic : i < (crossover parent_a parent_b alpha).weights.length)
          (hia : i < parent_a.weights.length) (hib : i < parent_b.weights.length),
        (crossover parent_a parent_b alpha).weights.get ⟨i, hic⟩ =
          alpha i * parent_a.weights.get ⟨i, hia⟩ +
            (1 - alpha i) * parent_b.weights.get ⟨i, hib⟩ ∧
        (0 ≤ alpha i → alpha i ≤ 1 →
          min (parent_a.weights.get ⟨i, hia⟩) (parent_b.weights.get ⟨i, hib⟩) ≤
              (crossover parent_a parent_b alpha).weights.get ⟨i, hic⟩ ∧
            (crossover parent_a parent_b alpha).weights.get ⟨i, hic⟩ ≤
              max (parent_a.weights.get ⟨i, hia⟩) (parent_b.weights.get ⟨i, hib⟩)))) := by
  refine ⟨?_, ?_, ?_⟩
  · intro h
    simp [crossover, h]
  · intro x y
    by_cases h : y.2 > x.2
    · refine ⟨?_, Or.inr ?_⟩ <;> simp [orderParents, h, max_eq_right (le_of_lt h)]
    · refine ⟨?_, Or.inl ?_⟩ <;> simp [orderParents, h, max_eq_left (not_lt.mp h)]
  · intro h
    have hcross : crossover parent_a parent_b alpha =
        { input_size := parent_a.input_size
          output_size := parent_a.output_size
          topology := parent_a.topology
          activations := parent_a.activations
          weights :=
            List.zipWith
              (fun (p : ℕ × ℚ) wb => alpha p.1 * p.2 + (1 - alpha p.1) * wb)
              parent_a.weights.enum parent_b.weights } := by
      simp [crossover, h]
    refine ⟨by rw [hcross], by rw [hcross], ?_, ?_⟩
    · intro hlen
      rw [hcross]
      simp [hlen]
    · intro i hic hia hib
      have hw : (crossover parent_a parent_b alpha).weights =
          List.zipWith
            (fun (p : ℕ × ℚ) wb => alpha p.1 * p.2 + (1 - alpha p.1) * wb)
            parent_a.weights.enum parent_b.weights := by
        rw [hcross]
      have hval : (crossover parent_a parent_b alpha).weights.get ⟨i, hic⟩ =
          alpha i * parent_a.weights.get ⟨i, hia⟩ +
            (1 - alpha i) * parent_b.weights.get ⟨i, hib⟩ := by
        rw [List.get_of_eq hw ⟨i, hic⟩]
        simp [List.get_eq_getElem, List.getElem_zipWith, List.getElem_enum]
      refine ⟨hval, ?_⟩
      intro h0 h1
      rw [hval]
      exact blend_between _ _ _ h0 h1

/-- Witness for C3 at concrete parents: differing topologies give a copy of
the first parent, matching topologies inherit its topology and
activations. -/
theorem crossover_properties_witness :
    witGenome.topology ≠ witGenomeC.topology ∧
    crossover witGenome witGenomeC (fun _ => 1/2) = witGenome.copy ∧
    witGenome.topology = witGenomeB.topology ∧
    (crossover witGenome witGenomeB (fun _ => 1/2)).topology = witGenome.topology ∧
    (crossover witGenome witGenomeB (fun _ => 1/2)).activations = witGenome.activations :=
  ⟨by decide,
   (crossover_properties witGenome witGenomeC (fun _ => 1/2)).1 (by decide),
   by decide,
   ((crossover_properties witGenome witGenomeB (fun _ => 1/2)).2.2 (by decide)).1,
   ((crossover_properties witGenome witGenomeB (fun _ => 1/2)).2.2 (by decide)).2.1⟩

/-- The re-randomized weight buffer has exactly the implied total size. -/
theorem randomWeights_length (input_size : ℕ) (topology : List ℕ) (output_size : ℕ)
    (w : ℕ → ℚ) :
    (randomWeights input_size topology output_size w).length =
      totalWeightSize (input_size :: topology ++ [output_size]) := by
  simp [randomWeights]

/-- A genome copy is the genome itself (structure eta). -/
theorem Genome.copy_eq (g : Genome) : g.copy = g := rfl

/-- np.clip keeps the resized width inside the configured neuron bounds. -/
theorem clipNeurons_bounds (x : ℤ) :
    GENOME_MIN_NEURONS ≤ clipNeurons x ∧ clipNeurons x ≤ GENOME_MAX_NEURONS := by
  unfold clipNeurons GENOME_MIN_NEURONS GENOME_MAX_NEURONS
  omega

/-- Weight mutation preserves genome well-formedness. -/
theorem wellFormed_mutateWeights (g : Genome) (d : MutationDraws)
    (h : wellFormed g) : wellFormed (g.mutateWeights d) := by
  obtain ⟨h1, h2, h3, h4, h5⟩ := h
  refine ⟨h1, ?_, h3, h4, h5⟩
  simpa [Genome.mutateWeights] using h2

/-- Activation mutation preserves genome well-formedness. -/
theorem wellFormed_mutateActivations (g : Genome) (d : MutationDraws)
    (h : wellFormed g) : wellFormed (g.mutateActivations d) := by
  obtain ⟨h1, h2, h3, h4, h5⟩ := h
  refine ⟨?_, h2, h3, h4, h5⟩
  simpa [Genome.mutateActivations] using h1

/-- Layer insertion preserves genome well-formedness. -/
theorem wellFormed_addLayer (g : Genome) (d : MutationDraws)
    (h : wellFormed g) (hv : d.Valid g) : wellFormed (g.addLayer d) := by
  obtain ⟨h1, h2, h3, h4, h5⟩ := h
  obtain ⟨-, -, -, -, -, hidx, hsize, -, -, -, -⟩ := hv
  by_cases hcap : GENOME_MAX_LAYERS ≤ g.topology.length
  · simpa [Genome.addLayer, hcap] using ⟨h1, h2, h3, h4, h5⟩
  · have hidxa : d.addIndex ≤ g.activations.length := by omega
    have hlt : (g.topology.insertIdx d.addIndex d.addSize).length =
        g.topology.length + 1 := List.length_insertIdx _ _ hidx
    have hla : (g.activations.insertIdx d.addIndex d.addAct).length =
        g.activations.length + 1 := List.length_insertIdx _ _ hidxa
    refine ⟨?_, ?_, ?_, ?_, ?_⟩
    · simp only [Genome.addLayer, if_neg hcap]
      rw [hla, hlt, h1]
    · simp only [Genome.addLayer, if_neg hcap]
      rw [randomWeights_length]
    · simp only [Genome.addLayer, if_neg hcap]
      rw [hlt]
      omega
    · simp only [Genome.addLayer, if_neg hcap]
      rw [hlt]
      omega
    · simp only [Genome.addLayer, if_neg hcap]
      intro n hn
      rcases (List.mem_insertIdx hidx).mp hn with rfl | hmem
      · exact hsize
      · exact h5 n hmem

/-- Layer removal preserves genome well-formedness. -/
theorem wellFormed_removeLayer (g : Genome) (d : MutationDraws)
    (h : wellFormed g) (hv : d.Valid g) : wellFormed (g.removeLayer d) := by
  obtain ⟨h1, h2, h3, h4, h5⟩ := h
  obtain ⟨-, -, -, -, -, -, -, -, hrem, -, -⟩ := hv
  by_cases hfloor : g.topology.length ≤ GENOME_MIN_LAYERS
  · simpa [Genome.removeLayer, hfloor] using ⟨h1, h2, h3, h4, h5⟩
  · have hlen : d.removeIndex < g.topology.length := hrem (by omega)
    have hlena : d.removeIndex < g.activations.length := by omega
    have hlt : (g.topology.eraseIdx d.removeIndex).length + 1 =
        g.topology.length := List.length_eraseIdx_add_one hlen
    have hla : (g.activations.eraseIdx d.removeIndex).length + 1 =
        g.activations.length := List.length_eraseIdx_add_one hlena
    refine ⟨?_, ?_, ?_, ?_, ?_⟩
    · simp only [Genome.removeLayer, if_neg hfloor]
      omega
    · simp only [Genome.removeLayer, if_neg hfloor]
      rw [randomWeights_length]
    · simp only [Genome.removeLayer, if_neg hfloor]
      omega
    · simp only [Genome.removeLayer, if_neg hfloor]
      omega
    · simp only [Genome.removeLayer, if_neg hfloor]
      intro n hn
      exact h5 n (List.eraseIdx_subset _ _ hn)

/-- Layer resizing preserves genome well-formedness. -/
theorem wellFormed_resizeLayer (g : Genome) (d : MutationDraws)
    (h : wellFormed g) (hv : d.Valid g) : wellFormed (g.resizeLayer d) := by
  obtain ⟨h1, h2, h3, h4, h5⟩ := h
  obtain ⟨-, -, -, -, -, -, -, -, -, hres, -⟩ := hv
  refine ⟨?_, ?_, ?_, ?_, ?_⟩
  · simpa [Genome.resizeLayer] using h1
  · simp only [Genome.resizeLayer]
    rw [randomWeights_length]
  · simpa [Genome.resizeLayer] using h3
  · simpa [Genome.resizeLayer] using h4
  · simp only [Genome.resizeLayer]
    intro n hn
    rcases List.mem_or_eq_of_mem_set hn with hmem | rfl
    · exact h5 n hmem
    · exact clipNeurons_bounds _

/-- Topology mutation preserves genome well-formedness. -/
theorem wellFormed_mutateTopology (g : Genome) (d : MutationDraws)
    (h : wellFormed g) (hv : d.Valid g) : wellFormed (g.mutateTopology d) := by
  unfold Genome.mutateTopology
  by_cases hu : MUTATION_CHANCE_TOPOLOGY ≤ d.topoU
  · simpa [hu] using h
  · simp only [hu, if_false]
    cases d.topoChoice with
    | add => exact wellFormed_addLayer g d h hv
    | remove => exact wellFormed_removeLayer g d h hv
    | resize => exact wellFormed_resizeLayer g d h hv

/-- One full mutation call preserves genome well-formedness. -/
theorem wellFormed_mutate (g : Genome) (d : MutationDraws)
    (h : wellFormed g) (hv : d.Valid g) : wellFormed (g.mutate d) := by
  unfold Genome.mutate
  exact wellFormed_mutateTopology _ d
    (wellFormed_mutateActivations _ d (wellFormed_mutateWeights g d h)) hv

/-- Randomly initialised genomes are well-formed. -/
theorem wellFormed_random (input_size output_size : ℕ) (d : RandomDraws)
    (h : d.Valid) : wellFormed (Genome.random input_size output_size d) := by
  obtain ⟨hmin, hmax, hsz, -⟩ := h
  refine ⟨?_, ?_, ?_, ?_, ?_⟩
  · simp [Genome.random, randomActivations]
  · simp only [Genome.random]
    rw [randomWeights_length]
  · simpa [Genome.random] using hmin
  · simpa [Genome.random] using hmax
  · simp only [Genome.random]
    intro n hn
    simp only [List.mem_map, List.mem_range] at hn
    obtain ⟨i, -, rfl⟩ := hn
    exact hsz i

/-- Crossover of same-shape well-formed parents is well-formed. -/
theorem wellFormed_crossover (a b : Genome) (alpha : ℕ → ℚ)
    (ha : wellFormed a) (hb : wellFormed b)
    (hi : a.input_size = b.input_size) (ho : a.output_size = b.output_size) :
    wellFormed (crossover a b alpha) := by
  by_cases h : a.topology ≠ b.topology
  · rw [crossover, if_pos h, Genome.copy_eq]
    exact ha
  · push_neg at h
    obtain ⟨ha1, ha2, ha3, ha4, ha5⟩ := ha
    obtain ⟨hb1, hb2, hb3, hb4, hb5⟩ := hb
    have hwlen : b.weights.length = a.weights.length := by
      rw [ha2, hb2, hi, ho, h]
    have hc : crossover a b alpha =
        { input_size := a.input_size
          output_size := a.output_size
          topology := a.topology
          activations := a.activations
          weights :=
            List.zipWith
              (fun (p : ℕ × ℚ) wb => alpha p.1 * p.2 + (1 - alpha p.1) * wb)
              a.weights.enum b.weights } := by
      rw [crossover, if_neg (by simpa using h)]
    rw [hc]
    refine ⟨ha1, ?_, ha3, ha4, ha5⟩
    simpa [hwlen] using ha2

/-- Iterated mutation with draws valid along the trajectory preserves
well-formedness. -/
theorem wellFormed_mutateSeq (g : Genome) (ds : List MutationDraws)
    (h : wellFormed g) (hv : ValidSeq g ds) : wellFormed (mutateSeq g ds) := by
  induction ds generalizing g with
  | nil => simpa [mutateSeq] using h
  | cons d ds ih =>
    obtain ⟨hd, hds⟩ := hv
    exact ih (g.mutate d) (wellFormed_mutate g d h hd) hds

/-- The concrete mutation draws of the witnesses are valid for every
genome: all index draws are 0 and all chances and deltas are in range. -/
theorem witMutationDrawsValidAll (g : Genome) : witMutationDraws.Valid g := by
  simp only [MutationDraws.Valid, witMutationDraws, GENOME_MIN_LAYERS,
    MUTATION_NOISE_LIMIT, MUTATION_RESIZE_LIMIT, GENOME_MIN_NEURONS,
    GENOME_MAX_NEURONS, hiddenActChoices]
  refine ⟨fun i => ⟨by norm_num, by norm_num⟩, fun i => ⟨by norm_num, by norm_num⟩,
    fun i => ⟨by norm_num, by norm_num⟩, fun i => by simp,
    ⟨by norm_num, by norm_num⟩, by omega, ⟨by omega, by omega⟩, by simp,
    fun h => by omega, fun h => by omega, ⟨by norm_num, by norm_num⟩⟩

/-- C2: genomes produced by random initialisation, by any number of
mutations, by copying, and by crossover all satisfy the well-formedness
invariant (activation count, weight buffer size, layer-count bounds and
neuron-count bounds). -/
theorem genome_invariant_preserved :
    (∀ (input_size output_size : ℕ) (d : RandomDraws), d.Valid →
      wellFormed (Genome.random input_size output_size d)) ∧
    (∀ (g : Genome) (d : MutationDraws), wellFormed g → d.Valid g →
      wellFormed (g.mutate d)) ∧
    (∀ g : Genome, wellFormed g → wellFormed g.copy) ∧
    (∀ (a b : Genome) (alpha : ℕ → ℚ), wellFormed a → wellFormed b →
      a.input_size = b.input_size → a.output_size = b.output_size →
      wellFormed (crossover a b alpha)) ∧
    (∀ (g : Genome) (ds : List MutationDraws), wellFormed g → ValidSeq g ds →
      wellFormed (mutateSeq g ds)) :=
  ⟨wellFormed_random,
    wellFormed_mutate,
    fun g h => (Genome.copy_eq g).symm ▸ h,
    wellFormed_crossover,
    wellFormed_mutateSeq⟩

/-- Witness for C2 at concrete genomes and draws. -/
theorem genome_invariant_preserved_witness :
    (witRandomDraws.Valid ∧ wellFormed (Genome.random 7 4 witRandomDraws)) ∧
    (wellFormed witGenome ∧ witMutationDraws.Valid witGenome ∧
      wellFormed (witGenome.mutate witMutationDraws)) ∧
    wellFormed witGenome.copy ∧
    wellFormed (crossover witGenome witGenomeB (fun _ => 1/2)) ∧
    (ValidSeq witGenome [witMutationDraws, witMutationDraws] ∧
      wellFormed (mutateSeq witGenome [witMutationDraws, witMutationDraws])) := by
  have hg : wellFormed witGenome := by decide
  have hgB : wellFormed witGenomeB := by decide
  have hseq : ValidSeq witGenome [witMutationDraws, witMutationDraws] :=
    ⟨witMutationDrawsValidAll _, witMutationDrawsValidAll _, trivial⟩
  exact ⟨⟨witRandomDrawsValid,
      genome_invariant_preserved.1 7 4 witRandomDraws witRandomDrawsValid⟩,
    ⟨hg, witMutationDrawsValidAll _,
      genome_invariant_preserved.2.1 witGenome witMutationDraws hg
        (witMutationDrawsValidAll _)⟩,
    genome_invariant_preserved.2.2.1 witGenome hg,
    genome_invariant_preserved.2.2.2.1 witGenome witGenomeB (fun _ => 1/2)
      hg hgB rfl rfl,
    ⟨hseq, genome_invariant_preserved.2.2.2.2 witGenome
      [witMutationDraws, witMutationDraws] hg hseq⟩⟩

/-- If every sample within the remaining budget is acceptable, the ray
march exhausts the budget and returns it. -/
theorem raycastLoop_all_ok (t : Track) (dx dy maxD : ℚ) :
    ∀ (fuel : ℕ) (x y dist : ℚ),
      (∀ k : ℕ, dist + 2 * k < maxD →
        t.sampleOk (x + dx * (2 * k)) (y + dy * (2 * k))) →
      raycastLoop t dx dy maxD x y dist fuel = maxD := by
  intro fuel
  induction fuel with
  | zero =>
    intro x y dist _
    rfl
  | succ n ih =>
    intro x y dist h
    by_cases hlt : dist < maxD
    · have h0 : t.sampleOk x y := by
        have := h 0 (by push_cast; linarith)
        simpa using this
      obtain ⟨hx0, hx1, hy0, hy1, hmask⟩ := h0
      rw [raycastLoop, if_pos hlt,
        if_neg (by push_neg; exact ⟨hx0, hx1, hy0, hy1⟩),
        if_neg (by simp [hmask])]
      apply ih
      intro k hk
      have h2 := h (k + 1) (by push_cast; linarith)
      push_cast at h2
      have e1 : x + dx * 2 + dx * (2 * (k : ℚ)) = x + dx * (2 * ((k : ℚ) + 1)) := by
        ring
      have e2 : y + dy * 2 + dy * (2 * (k : ℚ)) = y + dy * (2 * ((k : ℚ) + 1)) := by
        ring
      rw [e1, e2]
      exact h2
    · rw [raycastLoop, if_neg hlt]

/-- If the samples are acceptable up to step m and the sample at step m is
inside the budget but not acceptable, the ray march stops there and
returns the distance travelled up to step m. -/
theorem raycastLoop_first_bad (t : Track) (dx dy maxD : ℚ) :
    ∀ (m fuel : ℕ) (x y dist : ℚ), m < fuel →
      dist + 2 * m < maxD →
      (∀ k : ℕ, k < m → t.sampleOk (x + dx * (2 * k)) (y + dy * (2 * k))) →
      ¬ t.sampleOk (x + dx * (2 * m)) (y + dy * (2 * m)) →
      raycastLoop t dx dy maxD x y dist fuel = dist + 2 * m := by
  intro m
  induction m with
  | zero =>
    intro fuel x y dist hf hdm hgood hbad
    obtain ⟨f, rfl⟩ : ∃ f, fuel = f + 1 := ⟨fuel - 1, by omega⟩
    have hlt : dist < maxD := by push_cast at hdm; linarith
    have hbad0 : ¬ t.sampleOk x y := by simpa using hbad
    have hret : (dist : ℚ) = dist + 2 * ((0 : ℕ) : ℚ) := by push_cast; ring
    rw [raycastLoop, if_pos hlt]
    by_cases hb : ratTrunc x < 0 ∨ (t.width : ℤ) ≤ ratTrunc x ∨
        ratTrunc y < 0 ∨ (t.height : ℤ) ≤ ratTrunc y
    · rw [if_pos hb]
      exact hret
    · rw [if_neg hb]
      push_neg at hb
      have hmaskf : t.collision_mask (ratTrunc y) (ratTrunc x) = false := by
        rcases Bool.eq_false_or_eq_true (t.collision_mask (ratTrunc y) (ratTrunc x))
          with hm | hm
        · exact absurd ⟨hb.1, hb.2.1, hb.2.2.1, hb.2.2.2, hm⟩ hbad0
        · exact hm
      rw [if_pos hmaskf]
      exact hret
  | succ n ih =>
    intro fuel x y dist hf hdm hgood hbad
    obtain ⟨f, rfl⟩ : ∃ f, fuel = f + 1 := ⟨fuel - 1, by omega⟩
    have hn : (0 : ℚ) ≤ (n : ℚ) := Nat.cast_nonneg n
    have hlt : dist < maxD := by push_cast at hdm; linarith
    have h0 : t.sampleOk x y := by
      have := hgood 0 (Nat.succ_pos n)
      simpa using this
    obtain ⟨hx0, hx1, hy0, hy1, hmask⟩ := h0
    rw [raycastLoop, if_pos hlt,
      if_neg (by push_neg; exact ⟨hx0, hx1, hy0, hy1⟩),
      if_neg (by simp [hmask])]
    have hg2 : ∀ k : ℕ, k < n →
        t.sampleOk (x + dx * 2 + dx * (2 * k)) (y + dy * 2 + dy * (2 * k)) := by
      intro k hk
      have h2 := hgood (k + 1) (by omega)
      push_cast at h2
      have e1 : x + dx * 2 + dx * (2 * (k : ℚ)) = x + dx * (2 * ((k : ℚ) + 1)) := by
        ring
      have e2 : y + dy * 2 + dy * (2 * (k : ℚ)) = y + dy * (2 * ((k : ℚ) + 1)) := by
        ring
      rw [e1, e2]
      exact h2
    have hb2 : ¬ t.sampleOk (x + dx * 2 + dx * (2 * n)) (y + dy * 2 + dy * (2 * n)) := by
      have e1 : x + dx * 2 + dx * (2 * (n : ℚ)) = x + dx * (2 * ((n : ℚ) + 1)) := by
        ring
      have e2 : y + dy * 2 + dy * (2 * (n : ℚ)) = y + dy * (2 * ((n : ℚ) + 1)) := by
        ring
      rw [e1, e2]
      intro hcon
      apply hbad
      push_cast
      exact hcon
    have hrec := ih f (x + dx * 2) (y + dy * 2) (dist + 2) (by omega)
      (by push_cast; push_cast at hdm; linarith) hg2 hb2
    rw [hrec]
    push_cast
    ring

/-- C5: with a unit-length direction, if every fixed-size sample within the
distance budget lands on an in-bounds drivable cell then raycast returns
exactly the budget, and if the samples switch from drivable to blocked at
distance d below the budget then raycast returns a value within one step
size (2.0) of d. -/
theorem raycast_step_accuracy (t : Track) (ox oy dx dy maxD : ℚ)
    (hnorm : dx ^ 2 + dy ^ 2 = 1) :
    ((∀ k : ℕ, 2 * (k : ℚ) < maxD →
        t.sampleOk (ox + dx * (2 * k)) (oy + dy * (2 * k))) →
      t.raycast ox oy dx dy maxD = maxD) ∧
    (∀ d : ℚ, 0 ≤ d → d < maxD →
      (∀ k : ℕ, 2 * (k : ℚ) < maxD →
        (t.sampleOk (ox + dx * (2 * k)) (oy + dy * (2 * k)) ↔ 2 * (k : ℚ) < d)) →
      d ≤ t.raycast ox oy dx dy maxD ∧ t.raycast ox oy dx dy maxD < d + 2) := by
  have hguard : ¬ (|dx| < 1 / 10000000000 ∧ |dy| < 1 / 10000000000) := by
    rintro ⟨h1, h2⟩
    have c1 : dx ^ 2 < (1 / 10000000000 : ℚ) ^ 2 := by
      rw [sq, sq, ← abs_mul_abs_self dx]
      exact mul_lt_mul'' h1 h1 (abs_nonneg dx) (abs_nonneg dx)
    have c2 : dy ^ 2 < (1 / 10000000000 : ℚ) ^ 2 := by
      rw [sq, sq, ← abs_mul_abs_self dy]
      exact mul_lt_mul'' h2 h2 (abs_nonneg dy) (abs_nonneg dy)
    have csmall : (1 / 10000000000 : ℚ) ^ 2 + (1 / 10000000000 : ℚ) ^ 2 < 1 := by
      norm_num
    linarith
  constructor
  · intro hall
    rw [Track.raycast, if_neg hguard]
    apply raycastLoop_all_ok
    intro k hk
    exact hall k (by linarith)
  · intro d hd0 hdmax hiff
    have hm0 : (0 : ℤ) ≤ ⌈d / 2⌉ := Int.ceil_nonneg (by linarith)
    have hmz : ((⌈d / 2⌉.toNat : ℤ)) = ⌈d / 2⌉ := Int.toNat_of_nonneg hm0
    have hmq : ((⌈d / 2⌉.toNat : ℕ) : ℚ) = ((⌈d / 2⌉ : ℤ) : ℚ) := by
      exact_mod_cast congrArg (fun z : ℤ => (z : ℚ)) hmz
    have hceil_ge : d / 2 ≤ ((⌈d / 2⌉ : ℤ) : ℚ) := Int.le_ceil (d / 2)
    have hceil_lt : ((⌈d / 2⌉ : ℤ) : ℚ) < d / 2 + 1 := Int.ceil_lt_add_one (d / 2)
    have ha : d ≤ 2 * ((⌈d / 2⌉.toNat : ℕ) : ℚ) := by
      rw [hmq]
      linarith
    have hc : 2 * ((⌈d / 2⌉.toNat : ℕ) : ℚ) < d + 2 := by
      rw [hmq]
      linarith
    have hb : ∀ k : ℕ, k < ⌈d / 2⌉.toNat → 2 * (k : ℚ) < d := by
      intro k hk
      have hkz : (k : ℤ) < ⌈d / 2⌉ := by omega
      have := Int.lt_ceil.mp hkz
      push_cast at this
      linarith
    by_cases hcase : 2 * ((⌈d / 2⌉.toNat : ℕ) : ℚ) < maxD
    · have hfuel : ⌈d / 2⌉.toNat < raycastFuel maxD := by
        have hmlt : ((⌈d / 2⌉.toNat : ℕ) : ℚ) < maxD / 2 := by linarith
        have hz : ((⌈d / 2⌉.toNat : ℕ) : ℤ) < ⌈maxD / 2⌉ := by
          apply Int.lt_ceil.mpr
          push_cast
          exact hmlt
        unfold raycastFuel
        omega
      have hgood : ∀ k : ℕ, k < ⌈d / 2⌉.toNat →
          t.sampleOk (ox + dx * (2 * k)) (oy + dy * (2 * k)) := by
        intro k hk
        have h2kd := hb k hk
        exact (hiff k (by linarith)).mpr h2kd
      have hbad : ¬ t.sampleOk (ox + dx * (2 * (⌈d / 2⌉.toNat : ℕ)))
          (oy + dy * (2 * (⌈d / 2⌉.toNat : ℕ))) := by
        intro hcon
        have := (hiff _ hcase).mp hcon
        linarith
      have hres := raycastLoop_first_bad t dx dy maxD (⌈d / 2⌉.toNat)
        (raycastFuel maxD) ox oy 0 hfuel (by linarith) hgood hbad
      rw [Track.raycast, if_neg hguard, hres]
      constructor
      · linarith
      · linarith
    · have hall : ∀ k : ℕ, 0 + 2 * (k : ℚ) < maxD →
          t.sampleOk (ox + dx * (2 * k)) (oy + dy * (2 * k)) := by
        intro k hk
        have hkm : (k : ℚ) < ((⌈d / 2⌉.toNat : ℕ) : ℚ) := by linarith [not_lt.mp hcase]
        have hkm2 : k < ⌈d / 2⌉.toNat := by exact_mod_cast hkm
        exact (hiff k (by linarith)).mpr (hb k hkm2)
      have hres := raycastLoop_all_ok t dx dy maxD (raycastFuel maxD) ox oy 0 hall
      rw [Track.raycast, if_neg hguard, hres]
      constructor
      · linarith
      · linarith [not_lt.mp hcase]

/-- Witness for C5: on a fully drivable track every sample is acceptable
and raycast returns exactly the distance budget. -/
theorem raycast_step_accuracy_witness :
    ((1 : ℚ) ^ 2 + (0 : ℚ) ^ 2 = 1) ∧ witTrack.raycast 1 1 1 0 4 = 4 := by
  have hnorm : (1 : ℚ) ^ 2 + (0 : ℚ) ^ 2 = 1 := by norm_num
  refine ⟨hnorm, ?_⟩
  apply (raycast_step_accuracy witTrack 1 1 1 0 4 hnorm).1
  intro k hk
  have hk2 : k < 2 := by
    have hq : (k : ℚ) < 2 := by linarith
    exact_mod_cast hq
  have hmask : ∀ a b : ℤ, witTrack.collision_mask a b = true := fun a b => rfl
  interval_cases k
  · refine ⟨?_, ?_, ?_, ?_, hmask _ _⟩ <;> norm_num [ratTrunc, witTrack]
  · refine ⟨?_, ?_, ?_, ?_, hmask _ _⟩ <;> norm_num [ratTrunc, witTrack]

/-- A loop whose every iteration succeeds produces a list of results, one
per iteration. -/
theorem optionRange_isSome {α : Type} (f : ℕ → Option α) (n : ℕ)
    (h : ∀ k, k < n → (f k).isSome) :
    ∃ l, optionRange f n = some l ∧ l.length = n := by
  induction n with
  | zero => exact ⟨[], rfl, rfl⟩
  | succ m ih =>
    obtain ⟨l, hl, hlen⟩ := ih (fun k hk => h k (by omega))
    obtain ⟨x, hx⟩ := Option.isSome_iff_exists.mp (h m (by omega))
    refine ⟨l ++ [x], ?_, by simp [hlen]⟩
    simp [optionRange, hl, hx]

/-- A tournament over a nonempty pool with in-range index draws succeeds. -/
theorem runTournament_isSome (genomes : List (Genome × ℚ)) (d : TournamentDraw)
    (hne : genomes ≠ []) (hi : d.i < genomes.length) (hj : d.j < genomes.length) :
    (runTournament genomes d).isSome := by
  unfold runTournament
  by_cases h : genomes.length < 2
  · have h0 : 0 < genomes.length := List.length_pos.mpr hne
    simp [h, List.getElem?_eq_getElem h0]
  · simp [h, List.getElem?_eq_getElem hi, List.getElem?_eq_getElem hj]

/-- As runTournament_isSome, for the fitness-returning variant. -/
theorem runTournamentWithFitness_isSome (genomes : List (Genome × ℚ))
    (d : TournamentDraw) (hne : genomes ≠ [])
    (hi : d.i < genomes.length) (hj : d.j < genomes.length) :
    (runTournamentWithFitness genomes d).isSome := by
  unfold runTournamentWithFitness
  by_cases h : genomes.length < 2
  · have h0 : 0 < genomes.length := List.length_pos.mpr hne
    simp [h, List.getElem?_eq_getElem h0]
  · simp [h, List.getElem?_eq_getElem hi, List.getElem?_eq_getElem hj]

/-- Producing one child succeeds on a nonempty pool with in-range draws. -/
theorem makeChild_isSome (pool : List (Genome × ℚ)) (d : ChildDraws)
    (hne : pool ≠ [])
    (h1i : d.t1.i < pool.length) (h1j : d.t1.j < pool.length)
    (h2i : d.t2.i < pool.length) (h2j : d.t2.j < pool.length) :
    (makeChild pool d).isSome := by
  obtain ⟨a, ha⟩ := Option.isSome_iff_exists.mp
    (runTournamentWithFitness_isSome pool d.t1 hne h1i h1j)
  obtain ⟨b, hb⟩ := Option.isSome_iff_exists.mp
    (runTournamentWithFitness_isSome pool d.t2 hne h2i h2j)
  simp [makeChild, ha, hb]

/-- C1: with elitism cutoff below the population size and in-range draws,
next_generation succeeds and returns a population of exactly the target
size whose first ELITISM_CUTOFF entries are copies, with fitness reset
to 0, of the top ELITISM_CUTOFF entries of a descending-by-fitness sorted
permutation of the evaluated population; copying changes no genome field,
and the generation counter grows by exactly 1. -/
theorem next_generation_elitism (cfg : GeneticConfig) (ga : GA)
    (fitness_func : Genome → ℚ) (o : NextGenDraws)
    (hP : ga.population.length = ga.populationSize)
    (hE : cfg.ELITISM_CUTOFF < ga.populationSize)
    (hvalid : o.Valid (min (poolSize cfg ga.populationSize) ga.populationSize)) :
    ∃ (ga2 : GA) (sorted : List (Genome × ℚ)),
      nextGeneration cfg ga fitness_func o = some ga2 ∧
      sorted.Perm (ga.population.map (fun p => (p.1, fitness_func p.1))) ∧
      List.Pairwise fitGe sorted ∧
      ga2.population.take cfg.ELITISM_CUTOFF =
        (sorted.take cfg.ELITISM_CUTOFF).map (fun p => (p.1.copy, (0 : ℚ))) ∧
      (∀ g : Genome, g.copy = g) ∧
      ga2.population.length = ga.populationSize ∧
      ga2.generation = ga.generation + 1 := by
  set evaluated := ga.population.map (fun p => (p.1, fitness_func p.1)) with hev
  set sorted := sortByFitnessDesc evaluated with hsortdef
  have hslen : sorted.length = ga.populationSize := by
    rw [hsortdef, sortByFitnessDesc, List.length_insertionSort, hev,
      List.length_map, hP]
  set pool := sorted.take (poolSize cfg sorted.length) with hpooldef
  have hpoollen : pool.length =
      min (poolSize cfg ga.populationSize) ga.populationSize := by
    rw [hpooldef, List.length_take, hslen]
  have hpoolpos : 0 < pool.length := by
    rw [hpoollen]
    have h1 : cfg.ELITISM_CUTOFF + 1 ≤ poolSize cfg ga.populationSize :=
      le_max_right _ _
    omega
  have hpoolne : pool ≠ [] := by
    intro hcon
    rw [hcon] at hpoolpos
    simp at hpoolpos
  obtain ⟨hsurv, hchild⟩ := hvalid
  obtain ⟨winners, hw, hwlen⟩ := optionRange_isSome
    (fun i => runTournament pool (o.surv i))
    (ga.populationSize - cfg.ELITISM_CUTOFF)
    (fun k _ => runTournament_isSome pool (o.surv k) hpoolne
      (by rw [hpoollen]; exact (hsurv k).1)
      (by rw [hpoollen]; exact (hsurv k).2))
  have hselunfold : selectSurvivors cfg ga.populationSize sorted o =
      (optionRange (fun i => runTournament pool (o.surv i))
        (ga.populationSize - cfg.ELITISM_CUTOFF)).bind (fun winners =>
          some ((sorted.take cfg.ELITISM_CUTOFF).map Prod.fst ++ winners)) := rfl
  have hsel : selectSurvivors cfg ga.populationSize sorted o =
      some ((sorted.take cfg.ELITISM_CUTOFF).map Prod.fst ++ winners) := by
    rw [hselunfold, hw]
    rfl
  have helitelen : ((sorted.take cfg.ELITISM_CUTOFF).map
      (Prod.fst : Genome × ℚ → Genome)).length = cfg.ELITISM_CUTOFF := by
    rw [List.length_map, List.length_take, hslen]
    omega
  have htake : (((sorted.take cfg.ELITISM_CUTOFF).map Prod.fst ++ winners).take
      cfg.ELITISM_CUTOFF) = (sorted.take cfg.ELITISM_CUTOFF).map Prod.fst :=
    List.take_left' helitelen
  obtain ⟨children, hch, hchlen⟩ := optionRange_isSome
    (fun i => (makeChild pool (o.child i)).map (fun c => (c, (0 : ℚ))))
    (ga.populationSize - cfg.ELITISM_CUTOFF)
    (fun k _ => by
      rw [Option.isSome_map']
      exact makeChild_isSome pool (o.child k) hpoolne
        (by rw [hpoollen]; exact (hchild k).1.1)
        (by rw [hpoollen]; exact (hchild k).1.2)
        (by rw [hpoollen]; exact (hchild k).2.1)
        (by rw [hpoollen]; exact (hchild k).2.2))
  have hngunfold : nextGeneration cfg ga fitness_func o =
      (selectSurvivors cfg ga.populationSize sorted o).bind (fun survivors =>
        (optionRange
          (fun i => (makeChild pool (o.child i)).map (fun c => (c, (0 : ℚ))))
          (ga.populationSize -
            ((survivors.take cfg.ELITISM_CUTOFF).map
              (fun g => (g.copy, (0 : ℚ)))).length)).bind (fun cs =>
          some { generation := ga.generation + 1
                 population :=
                   (survivors.take cfg.ELITISM_CUTOFF).map
                     (fun g => (g.copy, (0 : ℚ))) ++ cs
                 populationSize := ga.populationSize })) := rfl
  have hcount : ga.populationSize -
      (((((sorted.take cfg.ELITISM_CUTOFF).map Prod.fst ++ winners).take
        cfg.ELITISM_CUTOFF)).map (fun g => (g.copy, (0 : ℚ)))).length =
      ga.populationSize - cfg.ELITISM_CUTOFF := by
    rw [htake, List.length_map, helitelen]
  have hng : nextGeneration cfg ga fitness_func o =
      some { generation := ga.generation + 1
             population :=
               (((sorted.take cfg.ELITISM_CUTOFF).map Prod.fst ++ winners).take
                 cfg.ELITISM_CUTOFF).map (fun g => (g.copy, (0 : ℚ))) ++ children
             populationSize := ga.populationSize } := by
    rw [hngunfold, hsel, Option.some_bind, hcount, hch, Option.some_bind]
  refine ⟨_, sorted, hng, ?_, ?_, ?_, fun g => rfl, ?_, rfl⟩
  · rw [hsortdef, sortByFitnessDesc]
    exact List.perm_insertionSort fitGe evaluated
  · rw [hsortdef, sortByFitnessDesc]
    exact List.sorted_insertionSort fitGe evaluated
  · rw [htake]
    have hlen2 : (((sorted.take cfg.ELITISM_CUTOFF).map Prod.fst).map
        (fun g => (g.copy, (0 : ℚ)))).length = cfg.ELITISM_CUTOFF := by
      rw [List.length_map, helitelen]
    rw [List.take_left' hlen2, List.map_map]
    rfl
  · rw [htake, List.length_append, List.length_map, helitelen, hchlen]
    omega

/-- Witness for C1 at a concrete two-genome population with elitism
cutoff 1. -/
theorem next_generation_elitism_witness :
    witGA.population.length = witGA.populationSize ∧
    witConfig.ELITISM_CUTOFF < witGA.populationSize ∧
    witNextGenDraws.Valid
      (min (poolSize witConfig witGA.populationSize) witGA.populationSize) ∧
    ∃ (ga2 : GA) (sorted : List (Genome × ℚ)),
      nextGeneration witConfig witGA witFitness witNextGenDraws = some ga2 ∧
      sorted.Perm (witGA.population.map (fun p => (p.1, witFitness p.1))) ∧
      List.Pairwise fitGe sorted ∧
      ga2.population.take witConfig.ELITISM_CUTOFF =
        (sorted.take witConfig.ELITISM_CUTOFF).map (fun p => (p.1.copy, (0 : ℚ))) ∧
      (∀ g : Genome, g.copy = g) ∧
      ga2.population.length = witGA.populationSize ∧
      ga2.generation = witGA.generation + 1 := by
  have h1 : witGA.population.length = witGA.populationSize := rfl
  have h2 : witConfig.ELITISM_CUTOFF < witGA.populationSize := by decide
  have hpool2 : 2 ≤ poolSize witConfig witGA.populationSize := le_max_right _ _
  have hmin : 2 ≤ min (poolSize witConfig witGA.populationSize) witGA.populationSize :=
    le_min hpool2 (by decide)
  have h3 : witNextGenDraws.Valid
      (min (poolSize witConfig witGA.populationSize) witGA.populationSize) := by
    refine ⟨fun k => ⟨?_, ?_⟩, fun k => ⟨⟨?_, ?_⟩, ?_, ?_⟩⟩ <;>
      exact lt_of_lt_of_le (by norm_num [witNextGenDraws, witChildDraws]) hmin
  exact ⟨h1, h2, h3,
    next_generation_elitism witConfig witGA witFitness witNextGenDraws h1 h2 h3⟩
